import Mathlib

/-!
Verification development for the link-upload metadata pipeline of the
kb-frontend backend (Express/MongoDB service).

The definitions below are a shallow embedding of the TypeScript services
`ShortCodeService` and `LinkUploadService` (file `src/unnamed/part_001`).
Effects are made explicit:
  * randomness (`Math.random`) becomes an explicit stream of draws;
  * the MongoDB store becomes either a predicate (existence checks), a list
    of records (queries) or a success/failure environment for writes;
  * outbound HTTP (`fetch` + per-provider parsing) becomes an oracle
    `fetch : String → Except String Metadata` standing for
    `fetchMetadataFromService`, which either throws or yields a parsed triple;
  * `await`-sequencing becomes plain sequencing, and each persisted write is
    recorded in an explicit event trace so that ordering properties can be
    stated;
  * timestamps (`uploadedAt`) become `Nat` ticks; `updatedAt` is not modelled
    (no claim in this development mentions it).
-/

namespace KbLinks

/-- Metadata processing state of a link record (`MetadataStatus` enum). -/
inductive MetadataStatus where
  | PENDING
  | PROCESSING
  | COMPLETED
  | FAILED
deriving DecidableEq, Repr

/-- Record lifecycle status (`FileStatus` enum); only the members the link
pipeline reads are modelled. -/
inductive FileStatus where
  | ACTIVE
  | DELETED
deriving DecidableEq, Repr

/-- The metadata triple produced by the resolver: each field is a JS
`string | undefined`, modelled as `Option String` (where `some ""` is an
empty-string value, distinct from `none` = `undefined`). -/
structure Metadata where
  title : Option String
  description : Option String
  thumbnail : Option String
deriving DecidableEq, Repr

/-- The all-`undefined` triple the resolver returns when nothing was found. -/
def emptyMetadata : Metadata := ⟨none, none, none⟩

/-- JS truthiness of a `string | undefined` value: `undefined` and `""` are
falsy, every other string is truthy. -/
def strTruthy : Option String → Bool
  | none => false
  | some s => !s.isEmpty

/-- `metadata && (metadata.title || metadata.description || metadata.thumbnail)`:
the resolver-loop acceptance test for a parsed result. -/
def Metadata.hasData (m : Metadata) : Bool :=
  strTruthy m.title || strTruthy m.description || strTruthy m.thumbnail

/-! ## ShortCodeService -/

/-- The draw alphabet of `generateShortCode`:
`const chars = 'ABCDEFGHIJKLMNPQRSTUVWXYZ123456789';`. -/
def shortCodeChars : List Char := "ABCDEFGHIJKLMNPQRSTUVWXYZ123456789".data

/-- `generateShortCode`: draws 6 characters from `shortCodeChars`; the six
values of `Math.floor(Math.random() * chars.length)` (each in `0..33`) are
the explicit argument `rand`. -/
def generateShortCode (rand : Fin 6 → Fin 34) : String :=
  ⟨(List.finRange 6).map fun i =>
    shortCodeChars.get ((rand i).cast (by decide))⟩

/-- `generateUniqueShortCode`'s do/while loop, by recursion on the number of
draws still allowed.  The source draws `draws k` (the `k`-th call to
`generateShortCode`, 0-based), increments `attempts` to `k + 1`, throws once
`attempts > maxAttempts = 100` — i.e. exactly after the first 100 drawn
codes have all collided (the source makes a 101st draw before throwing but
never uses it, so that draw is not modelled) — and otherwise returns the
drawn code unless the store's existence check accepts it, in which case it
loops.  `left` is `100 - k`, the number of draws still allowed. -/
def generateUniqueShortCodeLoop (draws : Nat → String)
    (exists_ : String → Bool) : Nat → Nat → Except String String
  | 0, _ => .error "无法生成唯一短码，请重试"
  | left + 1, k =>
    let shortCode := draws k
    if exists_ shortCode then
      generateUniqueShortCodeLoop draws exists_ left (k + 1)
    else
      .ok shortCode

/-- `generateUniqueShortCode`: `draws k` is the code produced by the
`k`-th call to `generateShortCode`, `exists_` is the store's existence
check (`isShortCodeExists`); at most 100 draws are checked. -/
def generateUniqueShortCode (draws : Nat → String) (exists_ : String → Bool) :
    Except String String :=
  generateUniqueShortCodeLoop draws exists_ 100 0

/-- The spec's description of the alphabet: uppercase `A`–`Z` without `O`,
followed by the digits `1`–`9`. -/
def specAlphabet : List Char :=
  (((List.range 26).map fun i => Char.ofNat ('A'.toNat + i)).filter (· ≠ 'O'))
    ++ ((List.range 9).map fun i => Char.ofNat ('1'.toNat + i))

/-! ## MetadataResolver (`extractLinkMetadata` and helpers) -/

/-- Built-in default primary provider endpoint. -/
def microlinkUrl : String := "https://api.microlink.io?url="

/-- Built-in fallback provider endpoint. -/
def opengraphUrl : String := "https://opengraph.xyz/api/v1/site-info?url="

/-- The provider list of `extractLinkMetadata`:
`[process.env.OG_SERVICE_URL || microlink, opengraph].filter(Boolean)`.
`envUrl` is `process.env.OG_SERVICE_URL` (`none` = unset); JS `||` falls
through to the default on `undefined` or `""`, and `filter(Boolean)` drops
empty strings. -/
def ogServices (envUrl : Option String) : List String :=
  ([(match envUrl with
     | some s => if s.isEmpty then microlinkUrl else s
     | none => microlinkUrl),
    opengraphUrl]).filter (fun s => !s.isEmpty)

/-- The provider loop of `extractLinkMetadata`, carrying `lastError`.
`fetch` stands for `fetchMetadataFromService` (HTTP request plus
provider-shape parsing): `.error` is a thrown provider error (timeout,
non-2xx, transport failure), `.ok` a parsed triple.  A parsed triple is
accepted when it has at least one truthy field; otherwise the loop moves on
(without touching `lastError`).  After the loop the code throws `lastError`
if one was recorded. -/
def tryOgServices (fetch : String → Except String Metadata) :
    List String → Option String → Except String Metadata
  | [], none => .ok emptyMetadata
  | [], some e => .error e
  | serviceUrl :: rest, lastError =>
    match fetch serviceUrl with
    | .ok metadata =>
      if metadata.hasData then .ok metadata
      else tryOgServices fetch rest lastError
    | .error e => tryOgServices fetch rest (some e)

/-- `extractLinkMetadata`: runs the provider loop; the outer `catch` turns
any thrown error into the all-empty triple, so the resolver never throws
past its boundary (the return type is total). -/
def extractLinkMetadata (providers : List String)
    (fetch : String → Except String Metadata) : Metadata :=
  match tryOgServices fetch providers none with
  | .ok m => m
  | .error _ => emptyMetadata

/-! ## Link records and the enrichment state machine -/

/-- The link-relevant fields of a persisted `FileModel` document. -/
structure LinkRecord where
  shortCode : String
  isLink : Bool
  linkUrl : String
  linkTitle : Option String
  linkDescription : Option String
  linkThumbnail : Option String
  metadataStatus : MetadataStatus
  status : FileStatus
  categories : List String
  tags : List String
  uploadedAt : Nat
deriving DecidableEq, Repr

/-- Persisted-write events of one submission/enrichment run, in program
order.  `insert` is the synchronous `insertOne`, `returned` marks
`uploadLink` handing the record back to its caller, `resolverCall` marks the
invocation of `extractLinkMetadata`, `statusWrite`/`metaWrite` are the
`updateOne` calls of `updateMetadataStatus`/`updateLinkMetadata`. -/
inductive Event where
  | insert (r : LinkRecord)
  | returned (r : LinkRecord)
  | statusWrite (s : MetadataStatus)
  | resolverCall
  | metaWrite (m : Metadata)
deriving DecidableEq, Repr

/-- Success/failure environment for the store writes of one enrichment run:
whether each `updateOne` call succeeds or throws. -/
structure StoreEnv where
  procOk : Bool
  metaOk : Bool
  compOk : Bool
  failOk : Bool
deriving DecidableEq, Repr

/-- The environment in which every store write succeeds. -/
def reliableStore : StoreEnv := ⟨true, true, true, true⟩

/-- `updateMetadataStatus`: sets `metadataStatus` via `updateOne`; its
`try/catch` swallows a store failure (logged only), so it never throws:
on failure the record is left as it was and nothing is persisted. -/
def updateMetadataStatus (ok : Bool) (status : MetadataStatus)
    (r : LinkRecord) : LinkRecord × List Event :=
  if ok then ({ r with metadataStatus := status }, [.statusWrite status])
  else (r, [])

/-- The `$set` document built by `updateLinkMetadata`: each resolved field
is written whenever it is truthy — the existing (possibly caller-supplied)
value is not consulted, despite the adjacent comment in the source. -/
def applyLinkMetadataUpdate (r : LinkRecord) (m : Metadata) : LinkRecord :=
  { r with
    linkTitle := if strTruthy m.title then m.title else r.linkTitle,
    linkDescription :=
      if strTruthy m.description then m.description else r.linkDescription,
    linkThumbnail :=
      if strTruthy m.thumbnail then m.thumbnail else r.linkThumbnail }

/-- `extractMetadataAsync`: PROCESSING write (swallowed on failure), resolver
call, metadata write (rethrows on failure), COMPLETED write (swallowed); the
surrounding `catch` maps a thrown error to a FAILED write (itself swallowed
on failure).  Returns the final record state together with the trace of
persisted writes; the resolver itself never throws (see
`extractLinkMetadata`), so the only throw site is the metadata write. -/
def extractMetadataAsync (senv : StoreEnv) (providers : List String)
    (fetch : String → Except String Metadata) (r : LinkRecord) :
    LinkRecord × List Event :=
  let (r1, t1) := updateMetadataStatus senv.procOk .PROCESSING r
  let metadata := extractLinkMetadata providers fetch
  if senv.metaOk then
    let r2 := applyLinkMetadataUpdate r1 metadata
    let (r3, t3) := updateMetadataStatus senv.compOk .COMPLETED r2
    (r3, t1 ++ [.resolverCall, .metaWrite metadata] ++ t3)
  else
    let (r2, t2) := updateMetadataStatus senv.failOk .FAILED r1
    (r2, t1 ++ [.resolverCall] ++ t2)

/-! ## LinkUploadService.uploadLink -/

/-- Caller input of `uploadLink` (`LinkUploadInput`); `title`/`description`
are JS `string | undefined`. -/
structure LinkUploadInput where
  url : String
  title : Option String
  description : Option String
  categories : List String
  tags : List String
deriving DecidableEq, Repr

/-- `validateUrl`: `new URL(url)` followed by a check that the protocol is
`http:` or `https:`.  The JS `URL` parser is abstracted to the scheme-prefix
test; the claims only quantify over URLs this predicate accepts. -/
def validateUrl (url : String) : Bool :=
  "http://".data.isPrefixOf url.data || "https://".data.isPrefixOf url.data

/-- `linkData.title || undefined`: an absent or empty string is stored as
`undefined`. -/
def orUndefined : Option String → Option String
  | none => none
  | some s => if s.isEmpty then none else some s

/-- `uploadLink`: validates the URL (`throw` on failure), allocates a short
code, inserts the skeleton record with `metadataStatus = PENDING` and
`status = ACTIVE`, returns that record to the caller, and only then runs
`extractMetadataAsync`, whose rejection is consumed by a `.catch` (and which
in fact never rejects).  The first component is what the caller receives;
the trace shows the insert and the hand-back preceding every enrichment
write.  `draws`/`exists_` drive the allocator, `now` is the insertion
timestamp, `senv`/`providers`/`fetch` drive the asynchronous enrichment. -/
def uploadLink (linkData : LinkUploadInput) (draws : Nat → String)
    (exists_ : String → Bool) (now : Nat) (senv : StoreEnv)
    (providers : List String) (fetch : String → Except String Metadata) :
    Except String LinkRecord × List Event :=
  if !validateUrl linkData.url then (.error "无效的URL格式", [])
  else
    match generateUniqueShortCode draws exists_ with
    | .error e => (.error e, [])
    | .ok shortCode =>
      let doc : LinkRecord :=
        { shortCode := shortCode
          isLink := true
          linkUrl := linkData.url
          linkTitle := orUndefined linkData.title
          linkDescription := orUndefined linkData.description
          linkThumbnail := none
          metadataStatus := .PENDING
          status := .ACTIVE
          categories := linkData.categories
          tags := linkData.tags
          uploadedAt := now }
      let (_, enrichTrace) := extractMetadataAsync senv providers fetch doc
      (.ok doc, .insert doc :: .returned doc :: enrichTrace)

/-! ## LinkUploadService.searchLinks

The Mongo filter uses `$regex: query, $options: 'i'` (and
`tags: $in [new RegExp(query, 'i')]`): the query string is interpreted as a
regular-expression pattern searched case-insensitively anywhere in the
field.  The regex dialect is modelled for the fragment this development
needs: every character matches itself (up to ASCII case), except `.` which
matches any single character.  Patterns using other metacharacters are
outside the model; the theorems only instantiate or hypothesise
metacharacter-free queries, plus the `.` pattern. -/

/-- One regex pattern character against one subject character
(case-insensitive). -/
def patCharMatches (pc c : Char) : Bool :=
  pc = '.' || pc.toLower = c.toLower

/-- Match the whole pattern against a prefix of the subject. -/
def matchHere : List Char → List Char → Bool
  | [], _ => true
  | _ :: _, [] => false
  | pc :: ps, c :: cs => patCharMatches pc c && matchHere ps cs

/-- Unanchored case-insensitive regex search, as Mongo's `$regex`/`i`
performs on a field value: the pattern may match starting at any position. -/
def regexSearchI (pat : List Char) (hay : List Char) : Bool :=
  (List.range (hay.length + 1)).any fun i => matchHere pat (hay.drop i)

/-- `$regex` on an optional field: a missing field matches nothing. -/
def optRegexSearchI (pat : List Char) : Option String → Bool
  | none => false
  | some s => regexSearchI pat s.data

/-- The Mongo filter of `searchLinks`: a link, not soft-deleted, and the
query-regex matches `linkUrl`, `linkTitle`, `linkDescription` or some tag. -/
def searchFilter (query : String) (r : LinkRecord) : Bool :=
  r.isLink && r.status != .DELETED &&
    (regexSearchI query.data r.linkUrl.data
      || optRegexSearchI query.data r.linkTitle
      || optRegexSearchI query.data r.linkDescription
      || r.tags.any fun t => regexSearchI query.data t.data)

/-- Stable descending insertion for `sortByUploadedAtDesc`. -/
def insertDescByUploadedAt (x : LinkRecord) : List LinkRecord → List LinkRecord
  | [] => [x]
  | y :: ys =>
    if y.uploadedAt < x.uploadedAt then x :: y :: ys
    else y :: insertDescByUploadedAt x ys

/-- `.sort(\x7b uploadedAt: -1 \x7d)`: newest first (modelled as a stable
sort). -/
def sortByUploadedAtDesc : List LinkRecord → List LinkRecord
  | [] => []
  | x :: xs => insertDescByUploadedAt x (sortByUploadedAtDesc xs)

/-- `searchLinks`: `find(filter).sort(...).skip((page-1)*limit).limit(limit)`
paired with `countDocuments(filter)`, over the store contents `store`. -/
def searchLinks (store : List LinkRecord) (query : String)
    (page limit : Nat) : List LinkRecord × Nat :=
  let matched := store.filter (searchFilter query)
  let skip := (page - 1) * limit
  (((sortByUploadedAtDesc matched).drop skip).take limit, matched.length)

/-- Case-insensitive substring containment, the spec's description of the
search match (`needle` occurs contiguously in `hay`, up to case). -/
def containsCI (hay needle : String) : Bool :=
  decide ((needle.data.map Char.toLower) <:+: (hay.data.map Char.toLower))

/-- Modelled from the spec: the record set `search` is claimed to return —
a link record, not soft-deleted, whose url, title, description or one of
whose tags contains the query as a case-insensitive substring. -/
def specSearchMatch (query : String) (r : LinkRecord) : Bool :=
  r.isLink && r.status != .DELETED &&
    (containsCI r.linkUrl query
      || (match r.linkTitle with | some t => containsCI t query | none => false)
      || (match r.linkDescription with
          | some d => containsCI d query | none => false)
      || r.tags.any fun t => containsCI t query)

/-! ## Auxiliary definitions used by the statements -/

/-- Projects the status written by an event, if any. -/
def statusOf : Event → Option MetadataStatus
  | .statusWrite s => some s
  | _ => none

/-- The ECMAScript regular-expression metacharacters; a query avoiding all
of them is matched by `$regex` exactly as a literal substring. -/
def regexMetaChars : List Char :=
  ['\\', '^', '$', '.', '|', '?', '*', '+', '(', ')', '[', ']', '\x7b', '\x7d']

/-- A sample pending link record used to instantiate general theorems. -/
def sampleRecord : LinkRecord :=
  { shortCode := "AB12CD"
    isLink := true
    linkUrl := "https://example.com/post/1"
    linkTitle := none
    linkDescription := none
    linkThumbnail := none
    metadataStatus := .PENDING
    status := .ACTIVE
    categories := ["docs"]
    tags := []
    uploadedAt := 0 }

/-- A record whose caller-supplied title is `"X"` (as persisted by
`uploadLink` for a submission with `title = "X"`). -/
def callerTitledRecord : LinkRecord :=
  { sampleRecord with linkTitle := some "X" }

/-- A resolver triple whose title `"Y"` differs from the caller's. -/
def resolvedY : Metadata := ⟨some "Y", none, none⟩

/-- A link record none of whose fields contains a literal `.` character. -/
def dotFreeRecord : LinkRecord :=
  { sampleRecord with linkUrl := "http://ab", metadataStatus := .COMPLETED }

/-! ## Helper lemmas -/

theorem shortCodeChars_spec : shortCodeChars = specAlphabet := by decide

theorem shortCodeChars_card : shortCodeChars.length = 34 := by decide

/-- Every character of the draw alphabet is an uppercase letter or digit,
and is neither `O` nor `0`. -/
theorem shortCodeChars_safe :
    ∀ c ∈ shortCodeChars,
      (('A' ≤ c ∧ c ≤ 'Z') ∨ ('0' ≤ c ∧ c ≤ '9')) ∧ c ≠ 'O' ∧ c ≠ '0' := by
  decide

/-- A successful allocation returns one of the drawn codes. -/
theorem generateUniqueShortCodeLoop_ok_mem (draws : Nat → String)
    (exists_ : String → Bool) :
    ∀ left k code,
      generateUniqueShortCodeLoop draws exists_ left k = .ok code →
      ∃ j, code = draws j := by
  intro left
  induction left with
  | zero =>
    intro k code h
    simp [generateUniqueShortCodeLoop] at h
  | succ n ih =>
    intro k code h
    unfold generateUniqueShortCodeLoop at h
    simp only [] at h
    split at h
    · exact ih (k + 1) code h
    · exact ⟨k, (Except.ok.inj h).symm⟩

/-- Shape of a single `generateShortCode` draw: six characters, all from the
alphabet. -/
theorem generateShortCode_shape (rand : Fin 6 → Fin 34) :
    (generateShortCode rand).length = 6 ∧
      ∀ c ∈ (generateShortCode rand).data, c ∈ shortCodeChars := by
  constructor
  · simp [generateShortCode, String.length]
  · intro c hc
    simp only [generateShortCode, List.mem_map] at hc
    obtain ⟨i, -, rfl⟩ := hc
    exact List.get_mem _ _ _

/-! ## Claim theorems -/

/-- C5: the provider list used by metadata resolution is the operator
override (when set to a non-empty value) followed by the built-in fallback
provider, and exactly the two built-in providers, primary first, when the
override is unset or empty. -/
theorem ogServices_order (envUrl : Option String) :
    (∀ s, envUrl = some s → s.isEmpty = false →
      ogServices envUrl = [s, opengraphUrl])
    ∧ (envUrl = none ∨ envUrl = some "" →
      ogServices envUrl = [microlinkUrl, opengraphUrl]) := by
  constructor
  · rintro s rfl hs
    simp [ogServices, hs, opengraphUrl]
    decide
  · rintro (rfl | rfl) <;> decide

/-- Witness for C5: a set override heads the list; an unset override yields
the built-in list. -/
theorem ogServices_order_witness :
    ogServices (some "https://og.internal/api?url=")
      = ["https://og.internal/api?url=", opengraphUrl]
    ∧ ogServices none = [microlinkUrl, opengraphUrl] :=
  ⟨(ogServices_order (some "https://og.internal/api?url=")).1 _ rfl rfl,
   (ogServices_order none).2 (Or.inl rfl)⟩

/-- C8 counterexample: the draw alphabet is exactly `A`–`Z` minus `O` plus
`1`–`9`, but that set has 34 characters, not 35 as the claim states. -/
theorem shortCodeChars_not_35 :
    shortCodeChars = specAlphabet ∧ shortCodeChars.length = 34
      ∧ ¬shortCodeChars.length = 35 := by
  decide

/-- C8 (amended: the alphabet has 34 characters, not 35): every character of
every allocated short code comes from the fixed alphabet `A`–`Z` minus `O`
plus `1`–`9`; consequently every allocated code is six characters long, each
an uppercase letter or digit, and contains neither `O` nor `0`. -/
theorem allocatedShortCode_format :
    shortCodeChars = specAlphabet ∧ shortCodeChars.length = 34
    ∧ ∀ (rands : Nat → Fin 6 → Fin 34) (exists_ : String → Bool)
        (code : String),
        generateUniqueShortCode (fun k => generateShortCode (rands k)) exists_
          = .ok code →
        code.length = 6
          ∧ ∀ c ∈ code.data,
              c ∈ shortCodeChars
                ∧ (('A' ≤ c ∧ c ≤ 'Z') ∨ ('0' ≤ c ∧ c ≤ '9'))
                ∧ c ≠ 'O' ∧ c ≠ '0' := by
  refine ⟨shortCodeChars_spec, shortCodeChars_card, ?_⟩
  intro rands exists_ code hok
  obtain ⟨j, rfl⟩ :=
    generateUniqueShortCodeLoop_ok_mem _ exists_ 100 0 code hok
  obtain ⟨hlen, hmem⟩ := generateShortCode_shape (rands j)
  exact ⟨hlen, fun c hc => ⟨hmem c hc, shortCodeChars_safe c (hmem c hc)⟩⟩

/-- Witness for C8's amended theorem: the all-zero draw allocates
`"AAAAAA"`, which has the stated shape. -/
theorem allocatedShortCode_format_witness :
    ("AAAAAA" : String).length = 6
      ∧ ∀ c ∈ ("AAAAAA" : String).data,
          c ∈ shortCodeChars
            ∧ (('A' ≤ c ∧ c ≤ 'Z') ∨ ('0' ≤ c ∧ c ≤ '9'))
            ∧ c ≠ 'O' ∧ c ≠ '0' :=
  allocatedShortCode_format.2.2 (fun _ _ => ⟨0, by decide⟩)
    (fun _ => false) "AAAAAA" rfl

/-- C1 is refuted by the code (a code bug, given the source's own comment
that extracted metadata is to be used only when the caller supplied none):
a record whose caller-supplied title is `"X"` ends enrichment — with every
store write succeeding and the resolver producing title `"Y"` — with stored
title `"Y"`, not `"X"`. -/
theorem enrichment_overwrites_caller_title :
    callerTitledRecord.linkTitle = some "X"
    ∧ extractLinkMetadata [microlinkUrl] (fun _ => .ok resolvedY) = resolvedY
    ∧ (extractMetadataAsync reliableStore [microlinkUrl]
        (fun _ => .ok resolvedY) callerTitledRecord).1.linkTitle = some "Y" := by
  refine ⟨rfl, rfl, rfl⟩

/-- When every provider throws, the provider loop ends in a thrown
`lastError` (or, for an empty provider list, the carried one). -/
theorem tryOgServices_all_fail (fetch : String → Except String Metadata)
    (providers : List String)
    (hfail : ∀ p ∈ providers, ∃ e, fetch p = .error e) :
    ∀ le : Option String,
      tryOgServices fetch providers le = .ok emptyMetadata
        ∨ ∃ e, tryOgServices fetch providers le = .error e := by
  induction providers with
  | nil =>
    intro le
    cases le with
    | none => exact Or.inl rfl
    | some e => exact Or.inr ⟨e, rfl⟩
  | cons p ps ih =>
    intro le
    obtain ⟨e, he⟩ := hfail p (List.mem_cons_self p ps)
    have := ih (fun q hq => hfail q (List.mem_cons_of_mem p hq)) (some e)
    simpa [tryOgServices, he] using this

/-- C2: when every configured provider fails, metadata resolution returns
the all-empty triple without throwing past its boundary (the wrapper is
total), and the owning record's enrichment run ends with a `COMPLETED`
status write, never `FAILED`. -/
theorem resolver_failure_yields_completed (providers : List String)
    (fetch : String → Except String Metadata) (r : LinkRecord)
    (hfail : ∀ p ∈ providers, ∃ e, fetch p = .error e) :
    extractLinkMetadata providers fetch = emptyMetadata
    ∧ (extractMetadataAsync reliableStore providers fetch r).1.metadataStatus
        = .COMPLETED
    ∧ (extractMetadataAsync reliableStore providers fetch r).2
        = [.statusWrite .PROCESSING, .resolverCall, .metaWrite emptyMetadata,
           .statusWrite .COMPLETED] := by
  have hempty : extractLinkMetadata providers fetch = emptyMetadata := by
    rcases tryOgServices_all_fail fetch providers hfail none with h | ⟨e, h⟩ <;>
      simp [extractLinkMetadata, h]
  refine ⟨hempty, ?_, ?_⟩ <;>
    simp [extractMetadataAsync, updateMetadataStatus, reliableStore, hempty]

/-- Witness for C2: two providers both answering HTTP 500. -/
theorem resolver_failure_yields_completed_witness :
    extractLinkMetadata [microlinkUrl, opengraphUrl]
        (fun _ => .error "HTTP 500: Internal Server Error") = emptyMetadata
    ∧ (extractMetadataAsync reliableStore [microlinkUrl, opengraphUrl]
        (fun _ => .error "HTTP 500: Internal Server Error")
        sampleRecord).1.metadataStatus = .COMPLETED
    ∧ (extractMetadataAsync reliableStore [microlinkUrl, opengraphUrl]
        (fun _ => .error "HTTP 500: Internal Server Error") sampleRecord).2
        = [.statusWrite .PROCESSING, .resolverCall, .metaWrite emptyMetadata,
           .statusWrite .COMPLETED] :=
  resolver_failure_yields_completed _ _ sampleRecord
    (fun _ _ => ⟨"HTTP 500: Internal Server Error", rfl⟩)

/-- C4: with a record starting from `PENDING` and every store write
succeeding, one enrichment run persists exactly the write sequence
`PROCESSING` — resolver call — metadata fields — `COMPLETED`: the status
history is `PENDING, PROCESSING, COMPLETED` with nothing skipped or
reordered, the `PROCESSING` write precedes the resolver invocation, and the
metadata-field write precedes the terminal status write. -/
theorem enrichment_status_sequence (providers : List String)
    (fetch : String → Except String Metadata) (r : LinkRecord)
    (hr : r.metadataStatus = .PENDING) :
    (extractMetadataAsync reliableStore providers fetch r).2
      = [.statusWrite .PROCESSING, .resolverCall,
         .metaWrite (extractLinkMetadata providers fetch),
         .statusWrite .COMPLETED]
    ∧ r.metadataStatus
        :: (extractMetadataAsync reliableStore providers fetch r).2.filterMap
            statusOf
      = [.PENDING, .PROCESSING, .COMPLETED]
    ∧ (extractMetadataAsync reliableStore providers fetch r).1.metadataStatus
      = .COMPLETED := by
  refine ⟨?_, ?_, ?_⟩ <;>
    simp [extractMetadataAsync, updateMetadataStatus, reliableStore, hr,
      statusOf]

/-- Witness for C4: a concrete pending record and a resolver whose only
provider times out. -/
theorem enrichment_status_sequence_witness :
    (extractMetadataAsync reliableStore [microlinkUrl]
        (fun _ => .error "ETIMEDOUT") sampleRecord).2
      = [.statusWrite .PROCESSING, .resolverCall,
         .metaWrite (extractLinkMetadata [microlinkUrl]
            (fun _ => .error "ETIMEDOUT")),
         .statusWrite .COMPLETED]
    ∧ sampleRecord.metadataStatus
        :: (extractMetadataAsync reliableStore [microlinkUrl]
            (fun _ => .error "ETIMEDOUT") sampleRecord).2.filterMap statusOf
      = [.PENDING, .PROCESSING, .COMPLETED]
    ∧ (extractMetadataAsync reliableStore [microlinkUrl]
        (fun _ => .error "ETIMEDOUT") sampleRecord).1.metadataStatus
      = .COMPLETED :=
  enrichment_status_sequence [microlinkUrl] (fun _ => .error "ETIMEDOUT")
    sampleRecord rfl

/-- C10: each metadata-status write swallows its own store failure.  With
the `PROCESSING` write failing, the run still resolves, writes the fields
and completes, without retrying the failed write; with the `COMPLETED`
write failing, the record silently stays `PROCESSING`; with the
metadata-field write throwing and the `FAILED` write also failing, the
record silently remains `PROCESSING` with nothing further persisted; with
the `FAILED` write succeeding, the run terminates in `FAILED` and the error
goes no further (the run's type is total: nothing propagates). -/
theorem statusWrite_failures_swallowed (providers : List String)
    (fetch : String → Except String Metadata) (r : LinkRecord) :
    extractMetadataAsync ⟨false, true, true, true⟩ providers fetch r
      = ({ applyLinkMetadataUpdate r (extractLinkMetadata providers fetch)
            with metadataStatus := .COMPLETED },
         [.resolverCall, .metaWrite (extractLinkMetadata providers fetch),
          .statusWrite .COMPLETED])
    ∧ ((extractMetadataAsync ⟨true, true, false, true⟩ providers fetch
          r).1.metadataStatus = .PROCESSING
        ∧ (extractMetadataAsync ⟨true, true, false, true⟩ providers fetch r).2
          = [.statusWrite .PROCESSING, .resolverCall,
             .metaWrite (extractLinkMetadata providers fetch)])
    ∧ extractMetadataAsync ⟨true, false, true, false⟩ providers fetch r
      = ({ r with metadataStatus := .PROCESSING },
         [.statusWrite .PROCESSING, .resolverCall])
    ∧ extractMetadataAsync ⟨true, false, true, true⟩ providers fetch r
      = ({ r with metadataStatus := .FAILED },
         [.statusWrite .PROCESSING, .resolverCall, .statusWrite .FAILED]) := by
  refine ⟨?_, ⟨?_, ?_⟩, ?_, ?_⟩ <;>
    simp [extractMetadataAsync, updateMetadataStatus, applyLinkMetadataUpdate]

/-- The provider loop returns the first provider result that has data,
regardless of the carried `lastError`, when every earlier provider either
throws or yields an empty triple. -/
theorem tryOgServices_first_success (fetch : String → Except String Metadata)
    (p : String) (m : Metadata) (ps₂ : List String)
    (hp : fetch p = .ok m) (hm : m.hasData = true) :
    ∀ (ps₁ : List String) (le : Option String),
      (∀ q ∈ ps₁,
        (∃ e, fetch q = .error e) ∨ ∃ m', fetch q = .ok m' ∧ m'.hasData = false) →
      tryOgServices fetch (ps₁ ++ p :: ps₂) le = .ok m := by
  intro ps₁
  induction ps₁ with
  | nil =>
    intro le _
    simp [tryOgServices, hp, hm]
  | cons q qs ih =>
    intro le hq
    rcases hq q (List.mem_cons_self q qs) with ⟨e, he⟩ | ⟨m', hm', hd⟩
    · simpa [tryOgServices, he] using
        ih (some e) fun x hx => hq x (List.mem_cons_of_mem q hx)
    · simpa [tryOgServices, hm', hd] using
        ih le fun x hx => hq x (List.mem_cons_of_mem q hx)

/-- C6: `resolve` walks the provider list strictly in order and returns the
first provider result with at least one non-empty field; its value does not
depend on the behaviour of the providers after that one (they are never
queried), and the errors of the earlier providers do not appear in it. -/
theorem resolve_first_success (ps₁ ps₂ : List String) (p : String)
    (fetch : String → Except String Metadata) (m : Metadata)
    (hfirst : ∀ q ∈ ps₁,
      (∃ e, fetch q = .error e) ∨ ∃ m', fetch q = .ok m' ∧ m'.hasData = false)
    (hp : fetch p = .ok m) (hm : m.hasData = true) :
    extractLinkMetadata (ps₁ ++ p :: ps₂) fetch = m
    ∧ ∀ fetch' : String → Except String Metadata,
        (∀ q ∈ ps₁, fetch' q = fetch q) → fetch' p = fetch p →
        extractLinkMetadata (ps₁ ++ p :: ps₂) fetch' = m := by
  constructor
  · simp [extractLinkMetadata,
      tryOgServices_first_success fetch p m ps₂ hp hm ps₁ none hfirst]
  · intro fetch' hagree hpagree
    have hp' : fetch' p = .ok m := hpagree.trans hp
    have hfirst' : ∀ q ∈ ps₁,
        (∃ e, fetch' q = .error e)
          ∨ ∃ m', fetch' q = .ok m' ∧ m'.hasData = false := by
      intro q hq
      rw [hagree q hq]
      exact hfirst q hq
    simp [extractLinkMetadata,
      tryOgServices_first_success fetch' p m ps₂ hp' hm ps₁ none hfirst']

/-- Witness for C6: the primary provider hangs up, the fallback provider
answers with a title; the result is the fallback's data and the behaviour
of a third provider is irrelevant. -/
theorem resolve_first_success_witness :
    extractLinkMetadata [microlinkUrl, opengraphUrl, "https://later.example/?url="]
        (fun q => if q = opengraphUrl then .ok ⟨some "T", none, none⟩
          else .error "socket hang up")
      = ⟨some "T", none, none⟩ :=
  (resolve_first_success [microlinkUrl] ["https://later.example/?url="]
    opengraphUrl
    (fun q => if q = opengraphUrl then .ok ⟨some "T", none, none⟩
      else .error "socket hang up")
    ⟨some "T", none, none⟩
    (by
      intro q hq
      simp only [List.mem_singleton] at hq
      subst hq
      exact Or.inl ⟨"socket hang up", rfl⟩)
    rfl (by decide)).1

/-- C3: for a submission whose URL passes validation and whose short-code
allocation succeeds, `uploadLink` hands the caller the freshly inserted
record with `metadataStatus = PENDING`; the insert and the hand-back
precede every enrichment write in the trace, and the caller-visible result
is the same whatever the asynchronous enrichment does (its failures never
propagate). -/
theorem uploadLink_pending_before_enrichment (linkData : LinkUploadInput)
    (draws : Nat → String) (exists_ : String → Bool) (now : Nat)
    (senv : StoreEnv) (providers : List String)
    (fetch : String → Except String Metadata) (code : String)
    (hurl : validateUrl linkData.url = true)
    (halloc : generateUniqueShortCode draws exists_ = .ok code) :
    ∃ doc : LinkRecord,
      (uploadLink linkData draws exists_ now senv providers fetch).1 = .ok doc
      ∧ doc.metadataStatus = .PENDING
      ∧ doc.status = .ACTIVE
      ∧ doc.shortCode = code
      ∧ doc.linkUrl = linkData.url
      ∧ (uploadLink linkData draws exists_ now senv providers fetch).2
          = .insert doc :: .returned doc
            :: (extractMetadataAsync senv providers fetch doc).2
      ∧ ∀ (senv' : StoreEnv) (providers' : List String)
          (fetch' : String → Except String Metadata),
          (uploadLink linkData draws exists_ now senv' providers' fetch').1
            = .ok doc := by
  have h1 : (!validateUrl linkData.url) = false := by rw [hurl]; rfl
  simp only [uploadLink, h1, Bool.false_eq_true, if_false, halloc]
  exact ⟨_, rfl, rfl, rfl, rfl, rfl, rfl, fun _ _ _ => rfl⟩

/-- Witness for C3: a concrete valid submission with a fresh short code. -/
theorem uploadLink_pending_before_enrichment_witness :
    ∃ doc : LinkRecord,
      (uploadLink ⟨"https://a.com", none, none, ["docs"], []⟩
          (fun _ => "AB12CD") (fun _ => false) 0 reliableStore []
          (fun _ => .error "unreachable")).1 = .ok doc
      ∧ doc.metadataStatus = .PENDING
      ∧ doc.status = .ACTIVE
      ∧ doc.shortCode = "AB12CD"
      ∧ doc.linkUrl = "https://a.com"
      ∧ (uploadLink ⟨"https://a.com", none, none, ["docs"], []⟩
          (fun _ => "AB12CD") (fun _ => false) 0 reliableStore []
          (fun _ => .error "unreachable")).2
          = .insert doc :: .returned doc
            :: (extractMetadataAsync reliableStore []
                (fun _ => .error "unreachable") doc).2
      ∧ ∀ (senv' : StoreEnv) (providers' : List String)
          (fetch' : String → Except String Metadata),
          (uploadLink ⟨"https://a.com", none, none, ["docs"], []⟩
              (fun _ => "AB12CD") (fun _ => false) 0 senv' providers'
              fetch').1 = .ok doc :=
  uploadLink_pending_before_enrichment _ _ _ 0 reliableStore _ _ "AB12CD"
    (by decide) rfl

/-- Behaviour of the allocation loop entered at draw index `k` with
`left = 100 - k` draws still allowed: it throws exactly when every
remaining allowed draw collides, and returns the first non-colliding one. -/
theorem generateUniqueShortCodeLoop_spec (draws : Nat → String)
    (exists_ : String → Bool) :
    ∀ left k, left + k = 100 →
      ((∃ e, generateUniqueShortCodeLoop draws exists_ left k = .error e)
        ↔ ∀ i, k ≤ i → i < 100 → exists_ (draws i) = true)
      ∧ ∀ j, k ≤ j → j < 100 → exists_ (draws j) = false →
          (∀ i, k ≤ i → i < j → exists_ (draws i) = true) →
          generateUniqueShortCodeLoop draws exists_ left k = .ok (draws j) := by
  intro left
  induction left with
  | zero =>
    intro k hk
    refine ⟨⟨fun _ i hki hi => absurd hi (by omega), fun _ => ⟨_, rfl⟩⟩, ?_⟩
    intro j hkj hj _ _
    omega
  | succ n ih =>
    intro k hk
    obtain ⟨ih1, ih2⟩ := ih (k + 1) (by omega)
    by_cases hex : exists_ (draws k) = true
    · have hloop : generateUniqueShortCodeLoop draws exists_ (n + 1) k
          = generateUniqueShortCodeLoop draws exists_ n (k + 1) := by
        simp [generateUniqueShortCodeLoop, hex]
      rw [hloop]
      constructor
      · constructor
        · intro he i hki hi
          rcases Nat.eq_or_lt_of_le hki with rfl | hlt
          · exact hex
          · exact ih1.mp he i hlt hi
        · intro hall
          exact ih1.mpr fun i hi1 hi2 => hall i (by omega) hi2
      · intro j hkj hj hjf hprev
        rcases Nat.eq_or_lt_of_le hkj with rfl | hlt
        · rw [hjf] at hex
          cases hex
        · exact ih2 j hlt hj hjf fun i h1 h2 => hprev i (by omega) h2
    · have hexf : exists_ (draws k) = false := by
        cases h' : exists_ (draws k)
        · rfl
        · exact absurd h' hex
      have hloop : generateUniqueShortCodeLoop draws exists_ (n + 1) k
          = .ok (draws k) := by
        simp [generateUniqueShortCodeLoop, hexf]
      rw [hloop]
      constructor
      · constructor
        · rintro ⟨e, he⟩
          cases he
        · intro hall
          rw [hall k (Nat.le_refl k) (by omega)] at hexf
          cases hexf
      · intro j hkj hj hjf hprev
        rcases Nat.eq_or_lt_of_le hkj with rfl | hlt
        · rfl
        · rw [hprev k (Nat.le_refl k) hlt] at hexf
          cases hexf

/-- The allocation loop never looks at draws beyond the allowed window. -/
theorem generateUniqueShortCodeLoop_congr (draws draws' : Nat → String)
    (exists_ : String → Bool) :
    ∀ left k, left + k = 100 →
      (∀ i, k ≤ i → i < 100 → draws i = draws' i) →
      generateUniqueShortCodeLoop draws exists_ left k
        = generateUniqueShortCodeLoop draws' exists_ left k := by
  intro left
  induction left with
  | zero =>
    intro k _ _
    rfl
  | succ n ih =>
    intro k hk hagree
    have hdk : draws k = draws' k := hagree k (Nat.le_refl k) (by omega)
    simp only [generateUniqueShortCodeLoop, hdk]
    split
    · exact ih (k + 1) (by omega) fun i h1 h2 => hagree i (by omega) h2
    · rfl

/-- C7: `generateUniqueShortCode` returns the first drawn code the store
does not already contain, throws the exhaustion error exactly when the
first 100 drawn codes all collide, and never consumes more than the first
100 draws (so it terminates within a bounded number of draws). -/
theorem generateUniqueShortCode_spec (draws : Nat → String)
    (exists_ : String → Bool) :
    ((∃ e, generateUniqueShortCode draws exists_ = .error e)
      ↔ ∀ i, i < 100 → exists_ (draws i) = true)
    ∧ (∀ j, j < 100 → exists_ (draws j) = false →
        (∀ i, i < j → exists_ (draws i) = true) →
        generateUniqueShortCode draws exists_ = .ok (draws j))
    ∧ ∀ draws' : Nat → String, (∀ i, i < 100 → draws i = draws' i) →
        generateUniqueShortCode draws exists_
          = generateUniqueShortCode draws' exists_ := by
  obtain ⟨h1, h2⟩ := generateUniqueShortCodeLoop_spec draws exists_ 100 0 rfl
  refine ⟨?_, ?_, ?_⟩
  · simpa [generateUniqueShortCode] using
      ⟨fun he i hi => h1.mp he i (Nat.zero_le i) hi,
       fun hall => h1.mpr fun i _ hi => hall i hi⟩
  · intro j hj hjf hprev
    exact h2 j (Nat.zero_le j) hj hjf fun i _ h => hprev i h
  · intro draws' hagree
    exact generateUniqueShortCodeLoop_congr draws draws' exists_ 100 0 rfl
      fun i _ h => hagree i h

/-- Witness for C7: the first draw collides, the second is fresh and
returned. -/
theorem generateUniqueShortCode_spec_witness :
    generateUniqueShortCode (fun k => if k = 0 then "AAAAA1" else "AAAAA2")
      (fun c => c == "AAAAA1") = .ok "AAAAA2" :=
  (generateUniqueShortCode_spec
      (fun k => if k = 0 then "AAAAA1" else "AAAAA2")
      (fun c => c == "AAAAA1")).2.1 1 (by omega) (by decide)
    (fun i hi => by
      have h0 : i = 0 := Nat.lt_one_iff.mp hi
      subst h0
      decide)

/-- For a pattern without the `.` wildcard, anchored regex matching is
case-insensitive prefix comparison. -/
theorem matchHere_literal :
    ∀ pat cs : List Char, (∀ c ∈ pat, c ≠ '.') →
      (matchHere pat cs = true
        ↔ pat.map Char.toLower <+: cs.map Char.toLower) := by
  intro pat
  induction pat with
  | nil =>
    intro cs _
    simp [matchHere]
  | cons pc ps ih =>
    intro cs h
    have hpc : pc ≠ '.' := h pc (List.mem_cons_self pc ps)
    cases cs with
    | nil => simp [matchHere]
    | cons c cs' =>
      simp only [matchHere, patCharMatches, List.map_cons,
        List.cons_prefix_cons, Bool.and_eq_true, Bool.or_eq_true]
      rw [ih cs' fun x hx => h x (List.mem_cons_of_mem pc hx)]
      constructor
      · rintro ⟨h1 | h2, hrest⟩
        · exact absurd (of_decide_eq_true h1) hpc
        · exact ⟨of_decide_eq_true h2, hrest⟩
      · rintro ⟨heq, hrest⟩
        exact ⟨Or.inr (decide_eq_true heq), hrest⟩

/-- For a pattern without the `.` wildcard, unanchored case-insensitive
regex search is case-insensitive substring containment. -/
theorem regexSearchI_literal (pat hay : List Char)
    (h : ∀ c ∈ pat, c ≠ '.') :
    regexSearchI pat hay = true
      ↔ pat.map Char.toLower <:+: hay.map Char.toLower := by
  unfold regexSearchI
  rw [List.any_eq_true]
  constructor
  · rintro ⟨i, _, hm⟩
    rw [matchHere_literal pat _ h] at hm
    refine List.infix_iff_prefix_suffix.mpr
      ⟨(hay.drop i).map Char.toLower, hm, ?_⟩
    rw [List.map_drop]
    exact List.drop_suffix i _
  · intro hinf
    obtain ⟨t, hpre, hsuf⟩ := List.infix_iff_prefix_suffix.mp hinf
    have hts := List.suffix_iff_eq_drop.mp hsuf
    refine ⟨(hay.map Char.toLower).length - t.length, ?_, ?_⟩
    · rw [List.mem_range, List.length_map]
      omega
    · rw [matchHere_literal pat _ h, List.map_drop, ← hts]
      exact hpre

/-- On queries free of regex metacharacters the Mongo filter of
`searchLinks` agrees pointwise with the spec's substring predicate. -/
theorem searchFilter_eq_specSearchMatch (query : String)
    (hq : ∀ c ∈ query.data, c ∉ regexMetaChars) (r : LinkRecord) :
    searchFilter query r = specSearchMatch query r := by
  have hdot : ∀ c ∈ query.data, c ≠ '.' := by
    intro c hc heq
    exact hq c hc (by rw [heq]; decide)
  have key : ∀ s : String, regexSearchI query.data s.data = containsCI s query := by
    intro s
    have hiff := regexSearchI_literal query.data s.data hdot
    unfold containsCI
    cases hb : regexSearchI query.data s.data
    · symm
      rw [decide_eq_false_iff_not]
      intro hin
      rw [hb] at hiff
      exact Bool.false_ne_true (hiff.mpr hin)
    · symm
      rw [decide_eq_true_eq]
      exact hiff.mp hb
  cases htitle : r.linkTitle <;> cases hdesc : r.linkDescription <;>
    simp [searchFilter, specSearchMatch, optRegexSearchI, htitle, hdesc, key]

/-- C9 counterexample: the code passes the query to Mongo as a regular
expression, not a literal substring.  For the query `"."` the store record
whose url is `"http://ab"` (which contains no `.` character in any
searched field) is returned by `searchLinks`, although the claim's
case-insensitive-substring predicate rejects it. -/
theorem searchLinks_regex_not_substring :
    (searchLinks [dotFreeRecord] "." 1 20).1 = [dotFreeRecord]
    ∧ specSearchMatch "." dotFreeRecord = false := by
  exact ⟨rfl, rfl⟩

/-- C9 (amended: restricted to query strings containing no regular
expression metacharacter, for which `$regex` search coincides with
case-insensitive substring matching): `search` returns exactly the
non-soft-deleted link records one of whose searched fields (url, title,
description, or a tag) contains the query case-insensitively — sorted by
upload time, paginated with 1-based `page` and the given `limit` — plus
the total count of all matching records. -/
theorem searchLinks_substring_spec (store : List LinkRecord) (query : String)
    (page limit : Nat) (hq : ∀ c ∈ query.data, c ∉ regexMetaChars) :
    (searchLinks store query page limit).2
        = (store.filter (specSearchMatch query)).length
    ∧ (searchLinks store query page limit).1
        = ((sortByUploadedAtDesc (store.filter (specSearchMatch query))).drop
            ((page - 1) * limit)).take limit := by
  have hfilter : store.filter (searchFilter query)
      = store.filter (specSearchMatch query) :=
    List.filter_congr fun r _ => searchFilter_eq_specSearchMatch query hq r
  constructor <;> simp [searchLinks, hfilter]

/-- Witness for C9's amended theorem: a metacharacter-free query over a
one-record store. -/
theorem searchLinks_substring_spec_witness :
    (searchLinks [sampleRecord] "example" 1 20).2
        = (List.filter (specSearchMatch "example") [sampleRecord]).length
    ∧ (searchLinks [sampleRecord] "example" 1 20).1
        = ((sortByUploadedAtDesc
            (List.filter (specSearchMatch "example") [sampleRecord])).drop
            ((1 - 1) * 20)).take 20 :=
  searchLinks_substring_spec [sampleRecord] "example" 1 20 (by decide)

end KbLinks
